import Mathlib

/-!
# Six — a Vi-like modal editing core: verification of its specification

This file embeds the editing core of the Six editor in Lean 4:

* the flat text model: a Rust `&str` is a valid UTF-8 byte sequence; we model
  the owned content as a `List Char` (Unicode scalar values) and derive its
  byte sequence through the standard UTF-8 encoding, so byte offsets, codepoint
  boundaries and `str::len` (a *byte* count) are all faithfully represented;
* the motion metrics of `src/six/src/cursor/` (`codepoint.rs`, `bounded.rs`,
  `head.rs`, `tail.rs`, `line.rs`, `paragraph.rs`), which step a byte-offset
  cursor across the buffer;
* the mode state machine of `src/six/src/mode.rs` (`Mode::advance`), with the
  boxed `FnOnce` continuations defunctionalised into plain data;
* the row/column snapshot (`src/six/src/cursor.rs`, `src/six/src/state.rs`)
  used by the `Paragraph` motion over a row-based view.

Theorems about each claim follow the definitions.
-/

/-! ## UTF-8 encoding

The Six sources operate on Rust `&str` values, whose UTF-8 encoding is
provided by the language environment.  We reproduce the standard encoding:
a scalar value `v` encodes to 1–4 bytes depending on its range, with the
lead byte carrying the high bits and each continuation byte carrying six
bits tagged `0x80`. -/

/-- Number of bytes of the UTF-8 encoding of a character (Rust `char::len_utf8`). -/
def utf8SizeC (c : Char) : Nat :=
  if c.toNat < 0x80 then 1
  else if c.toNat < 0x800 then 2
  else if c.toNat < 0x10000 then 3
  else 4

/-- The UTF-8 encoding of one character, as natural numbers below 256. -/
def encodeChar (c : Char) : List Nat :=
  let v := c.toNat
  if v < 0x80 then [v]
  else if v < 0x800 then [0xC0 + v / 64, 0x80 + v % 64]
  else if v < 0x10000 then [0xE0 + v / 4096, 0x80 + v / 64 % 64, 0x80 + v % 64]
  else [0xF0 + v / 262144, 0x80 + v / 4096 % 64, 0x80 + v / 64 % 64, 0x80 + v % 64]

/-- The UTF-8 byte sequence of a text (Rust `str::as_bytes`). -/
def utf8Bytes (s : List Char) : List Nat :=
  (s.map encodeChar).flatten

/-- The UTF-8 byte length of a text (Rust `str::len`). -/
def utf8Len (s : List Char) : Nat :=
  (s.map utf8SizeC).sum

theorem encodeChar_length (c : Char) : (encodeChar c).length = utf8SizeC c := by
  unfold encodeChar utf8SizeC
  by_cases h1 : c.toNat < 0x80
  · simp [h1]
  · by_cases h2 : c.toNat < 0x800
    · simp [h1, h2]
    · by_cases h3 : c.toNat < 0x10000
      · simp [h1, h2, h3]
      · simp [h1, h2, h3]

theorem encodeChar_ne_nil (c : Char) : encodeChar c ≠ [] := by
  unfold encodeChar
  by_cases h1 : c.toNat < 0x80
  · simp [h1]
  · by_cases h2 : c.toNat < 0x800
    · simp [h1, h2]
    · by_cases h3 : c.toNat < 0x10000
      · simp [h1, h2, h3]
      · simp [h1, h2, h3]

theorem utf8Bytes_length (s : List Char) : (utf8Bytes s).length = utf8Len s := by
  induction s with
  | nil => rfl
  | cons c cs ih =>
      simp [utf8Bytes, utf8Len] at ih ⊢
      simp [encodeChar_length c, ih]

theorem utf8Bytes_cons (c : Char) (cs : List Char) :
    utf8Bytes (c :: cs) = encodeChar c ++ utf8Bytes cs := by
  simp [utf8Bytes]

theorem utf8Bytes_append (p q : List Char) :
    utf8Bytes (p ++ q) = utf8Bytes p ++ utf8Bytes q := by
  simp [utf8Bytes]

theorem utf8Len_cons (c : Char) (cs : List Char) :
    utf8Len (c :: cs) = utf8SizeC c + utf8Len cs := by
  simp [utf8Len]

theorem utf8Len_append (p q : List Char) :
    utf8Len (p ++ q) = utf8Len p + utf8Len q := by
  simp [utf8Len]

theorem one_le_utf8SizeC (c : Char) : 1 ≤ utf8SizeC c := by
  unfold utf8SizeC
  by_cases h1 : c.toNat < 0x80
  · simp [h1]
  · by_cases h2 : c.toNat < 0x800
    · simp [h1, h2]
    · by_cases h3 : c.toNat < 0x10000
      · simp [h1, h2, h3]
      · simp [h1, h2, h3]

theorem char_toNat_lt (c : Char) : c.toNat < 0x110000 := by
  have h := c.valid
  show c.val.toNat < 0x110000
  rcases h with h | h <;> omega

/-- The lead byte of a character's encoding determines the encoding's length,
through the same branch structure that `Codepoint::next` reads off the buffer. -/
def leadSize (b : Nat) : Nat :=
  if b < 0x80 then 1 else if b < 0xe0 then 2 else if b < 0xf0 then 3 else 4

theorem encodeChar_head_leadSize (c : Char) :
    ∃ b rest, encodeChar c = b :: rest ∧ leadSize b = utf8SizeC c ∧
      (b < 0x80 ∨ 0xC0 ≤ b) := by
  have hv := char_toNat_lt c
  by_cases h1 : c.toNat < 0x80
  · refine ⟨c.toNat, [], by simp [encodeChar, h1], ?_, Or.inl h1⟩
    simp [leadSize, utf8SizeC, h1]
  · by_cases h2 : c.toNat < 0x800
    · have hd : c.toNat / 64 < 32 := by omega
      have hd2 : 2 ≤ c.toNat / 64 := by omega
      refine ⟨0xC0 + c.toNat / 64, [0x80 + c.toNat % 64],
        by simp [encodeChar, h1, h2], ?_, Or.inr (by omega)⟩
      simp only [leadSize, utf8SizeC, if_neg h1, if_pos h2,
        if_neg (by omega : ¬ 0xC0 + c.toNat / 64 < 0x80),
        if_pos (by omega : 0xC0 + c.toNat / 64 < 0xe0)]
    · by_cases h3 : c.toNat < 0x10000
      · have hd : c.toNat / 4096 < 16 := by omega
        refine ⟨0xE0 + c.toNat / 4096, [0x80 + c.toNat / 64 % 64, 0x80 + c.toNat % 64],
          by simp [encodeChar, h1, h2, h3], ?_, Or.inr (by omega)⟩
        simp only [leadSize, utf8SizeC, if_neg h1, if_neg h2, if_pos h3,
          if_neg (by omega : ¬ 0xE0 + c.toNat / 4096 < 0x80),
          if_neg (by omega : ¬ 0xE0 + c.toNat / 4096 < 0xe0),
          if_pos (by omega : 0xE0 + c.toNat / 4096 < 0xf0)]
      · have hd : c.toNat / 262144 < 5 := by omega
        refine ⟨0xF0 + c.toNat / 262144,
          [0x80 + c.toNat / 4096 % 64, 0x80 + c.toNat / 64 % 64, 0x80 + c.toNat % 64],
          by simp [encodeChar, h1, h2, h3], ?_, Or.inr (by omega)⟩
        simp only [leadSize, utf8SizeC, if_neg h1, if_neg h2, if_neg h3,
          if_neg (by omega : ¬ 0xF0 + c.toNat / 262144 < 0x80),
          if_neg (by omega : ¬ 0xF0 + c.toNat / 262144 < 0xe0),
          if_neg (by omega : ¬ 0xF0 + c.toNat / 262144 < 0xf0)]

theorem encodeChar_tail_mem (c : Char) :
    ∀ b ∈ (encodeChar c).tail, 0x80 ≤ b ∧ b < 0xC0 := by
  unfold encodeChar
  by_cases h1 : c.toNat < 0x80
  · simp [h1]
  · by_cases h2 : c.toNat < 0x800
    · simp only [h1, h2, if_true, if_false, List.tail_cons]
      intro b hb
      simp at hb
      omega
    · by_cases h3 : c.toNat < 0x10000
      · simp only [h1, h2, h3, if_true, if_false, List.tail_cons]
        intro b hb
        simp at hb
        rcases hb with hb | hb <;> omega
      · simp only [h1, h2, h3, if_true, if_false, List.tail_cons]
        intro b hb
        simp at hb
        rcases hb with hb | hb | hb <;> omega

theorem encodeChar_tail_continuation (c : Char) (t : Nat) (ht : 0 < t)
    (hlt : t < (encodeChar c).length) :
    ∃ b, (encodeChar c).get? t = some b ∧ 0x80 ≤ b ∧ b < 0xC0 := by
  obtain ⟨hd, tl, heq⟩ : ∃ hd tl, encodeChar c = hd :: tl := by
    cases henc : encodeChar c with
    | nil => exact absurd henc (encodeChar_ne_nil c)
    | cons hd tl => exact ⟨hd, tl, rfl⟩
  obtain ⟨u, hu⟩ : ∃ u, t = u + 1 := ⟨t - 1, by omega⟩
  subst hu
  rw [heq] at hlt ⊢
  simp only [List.get?_cons_succ]
  have hsome : ∃ b, tl.get? u = some b := by
    rw [List.get?_eq_getElem?]
    simp at hlt
    exact ⟨tl[u], List.getElem?_eq_getElem (by omega)⟩
  obtain ⟨b, hb⟩ := hsome
  refine ⟨b, hb, ?_⟩
  have hmem : b ∈ tl := List.get?_mem hb
  have := encodeChar_tail_mem c b (by rw [heq]; simpa using hmem)
  exact this

/-! ## The `Codepoint` metric (src/six/src/cursor/codepoint.rs)

`Codepoint::next` reads the lead byte at the cursor and advances by the
length it announces; `Codepoint::next_back` steps one byte back and then
keeps stepping while the offset is not a character boundary
(`str::is_char_boundary`). -/

/-- The source's `str::is_char_boundary`: true at 0, true at the total length, and true at
an interior index exactly when the byte there is not a continuation byte. -/
def isCharBoundary (bytes : List Nat) (i : Nat) : Bool :=
  if i = 0 then true
  else
    match bytes.get? i with
    | some b => decide (b < 0x80 ∨ 0xC0 ≤ b)
    | none => decide (i = bytes.length)

/-- The source's `Codepoint::next` (src/six/src/cursor/codepoint.rs, lines 23–36): if the
cursor sits at the end of the buffer there is no next position; otherwise the
offset advances by the length announced by the lead byte under the cursor. -/
def codepointNext (i : Nat) (bytes : List Nat) : Option Nat :=
  if i = bytes.length then none
  else some (i + leadSize (bytes.getD i 0))

/-- The backward scan of `Codepoint::next_back`: from `j`, the largest index
`≤ j` that is a character boundary (index 0 always is). -/
def prevBoundary (bytes : List Nat) : Nat → Nat
  | 0 => 0
  | j + 1 => if isCharBoundary bytes (j + 1) then j + 1 else prevBoundary bytes j

/-- The source's `Codepoint::next_back` (src/six/src/cursor/codepoint.rs, lines 40–52): at
offset 0 there is no previous position; otherwise step back one byte and keep
stepping while not on a character boundary. -/
def codepointPrev (i : Nat) (bytes : List Nat) : Option Nat :=
  if i = 0 then none
  else some (prevBoundary bytes (i - 1))

/-- A byte offset that lies on a codepoint boundary of the text: the length of
the encoding of some prefix of the text. -/
def Boundary (s : List Char) (i : Nat) : Prop :=
  ∃ p q, s = p ++ q ∧ i = utf8Len p

theorem boundary_zero (s : List Char) : Boundary s 0 :=
  ⟨[], s, rfl, rfl⟩

theorem boundary_le (s : List Char) (i : Nat) (h : Boundary s i) : i ≤ utf8Len s := by
  obtain ⟨p, q, hs, hi⟩ := h
  subst hs hi
  simp [utf8Len_append]

theorem prevBoundary_le (bytes : List Nat) (j : Nat) : prevBoundary bytes j ≤ j := by
  induction j with
  | zero => simp [prevBoundary]
  | succ k ih =>
      unfold prevBoundary
      split
      · exact le_refl _
      · exact Nat.le_trans ih (Nat.le_succ k)

theorem prevBoundary_isBoundary (bytes : List Nat) (j : Nat) :
    isCharBoundary bytes (prevBoundary bytes j) = true := by
  induction j with
  | zero => simp [prevBoundary, isCharBoundary]
  | succ k ih =>
      unfold prevBoundary
      split
      · assumption
      · exact ih

theorem prevBoundary_eq_of (bytes : List Nat) (i k : Nat) (hik : i ≤ k)
    (hb : isCharBoundary bytes i = true)
    (hnb : ∀ j, i < j → j ≤ k → isCharBoundary bytes j = false) :
    prevBoundary bytes k = i := by
  induction k with
  | zero =>
      simp [prevBoundary]
      omega
  | succ m ih =>
      unfold prevBoundary
      by_cases h : i = m + 1
      · subst h; simp [hb]
      · have hlt : i ≤ m := by omega
        have : isCharBoundary bytes (m + 1) = false := hnb (m + 1) (by omega) (le_refl _)
        simp [this]
        exact ih hlt (fun j h1 h2 => hnb j h1 (by omega))

/-- The byte at the start of the remainder is the lead byte of its first char. -/
theorem utf8Bytes_get_at_boundary (p : List Char) (c : Char) (q : List Char) :
    ∀ t, t < (encodeChar c).length →
      (utf8Bytes (p ++ c :: q)).get? (utf8Len p + t) = (encodeChar c).get? t := by
  intro t ht
  rw [utf8Bytes_append, utf8Bytes_cons]
  have hlen : (utf8Bytes p).length = utf8Len p := utf8Bytes_length p
  rw [List.get?_eq_getElem?, List.get?_eq_getElem?]
  rw [List.getElem?_append_right (by rw [hlen]; omega)]
  rw [hlen]
  simp only [Nat.add_sub_cancel_left]
  rw [List.getElem?_append_left (by omega)]

/-- Interior offsets of a character's encoding are not boundaries. -/
theorem not_boundary_inside (p : List Char) (c : Char) (q : List Char) (t : Nat)
    (ht0 : 0 < t) (htl : t < (encodeChar c).length) :
    isCharBoundary (utf8Bytes (p ++ c :: q)) (utf8Len p + t) = false := by
  obtain ⟨b, hb, hge, hlt⟩ := encodeChar_tail_continuation c t ht0 htl
  unfold isCharBoundary
  have hne : ¬ (utf8Len p + t = 0) := by omega
  rw [if_neg hne]
  rw [utf8Bytes_get_at_boundary p c q t htl, hb]
  simp
  omega

/-- Boundaries in the sense of prefix decomposition are `is_char_boundary`. -/
theorem boundary_isCharBoundary (s : List Char) (i : Nat) (h : Boundary s i) :
    isCharBoundary (utf8Bytes s) i = true := by
  obtain ⟨p, q, hs, hi⟩ := h
  subst hs hi
  unfold isCharBoundary
  by_cases h0 : utf8Len p = 0
  · simp [h0]
  · rw [if_neg h0]
    cases q with
    | nil =>
        have : (utf8Bytes (p ++ [])).get? (utf8Len p) = none := by
          rw [List.get?_eq_getElem?]
          apply List.getElem?_eq_none
          simp [utf8Bytes_length, utf8Len_append]
        rw [this]
        simp [utf8Bytes_length, utf8Len_append, utf8Len]
    | cons c q =>
        obtain ⟨b, rest, hb, _, hrange⟩ := encodeChar_head_leadSize c
        have := utf8Bytes_get_at_boundary p c q 0 (by simp [hb])
        rw [Nat.add_zero] at this
        rw [this, hb]
        simp
        rcases hrange with h | h
        · exact Or.inl h
        · exact Or.inr h

/-- Every position below the total length decomposes as a prefix plus an
offset into one character's encoding. -/
theorem position_decompose (s : List Char) (i : Nat) (h : i < utf8Len s) :
    ∃ p c q t, s = p ++ c :: q ∧ i = utf8Len p + t ∧ t < utf8SizeC c := by
  induction s generalizing i with
  | nil => simp [utf8Len] at h
  | cons c cs ih =>
      by_cases hc : i < utf8SizeC c
      · exact ⟨[], c, cs, i, rfl, by simp [utf8Len], hc⟩
      · have h2 : i - utf8SizeC c < utf8Len cs := by
          rw [utf8Len_cons] at h; omega
        obtain ⟨p, c2, q, t, hs, hi, htl⟩ := ih (i - utf8SizeC c) h2
        refine ⟨c :: p, c2, q, t, by simp [hs], ?_, htl⟩
        rw [utf8Len_cons]
        omega

/-- The source's `is_char_boundary` implies boundary in the prefix-decomposition sense,
on a valid UTF-8 byte sequence. -/
theorem isCharBoundary_boundary (s : List Char) (i : Nat)
    (h : isCharBoundary (utf8Bytes s) i = true) : Boundary s i := by
  by_cases h0 : i = 0
  · subst h0; exact boundary_zero s
  by_cases hl : i < utf8Len s
  · obtain ⟨p, c, q, t, hs, hi, htl⟩ := position_decompose s i hl
    by_cases ht0 : t = 0
    · subst ht0 hs
      exact ⟨p, c :: q, rfl, by omega⟩
    · exfalso
      rw [hs, hi] at h
      rw [not_boundary_inside p c q t (by omega) (by rw [encodeChar_length]; exact htl)] at h
      simp at h
  · by_cases he : i = utf8Len s
    · exact ⟨s, [], by simp, by omega⟩
    · exfalso
      unfold isCharBoundary at h
      rw [if_neg h0] at h
      have : (utf8Bytes s).get? i = none := by
        rw [List.get?_eq_getElem?]
        apply List.getElem?_eq_none
        rw [utf8Bytes_length]; omega
      rw [this] at h
      simp [utf8Bytes_length] at h
      omega

/-- Successful `Codepoint::next` from a boundary: the cursor lands exactly one
character later, and the bytes in between are continuation bytes. -/
theorem codepointNext_boundary (s : List Char) (p : List Char) (c : Char) (q : List Char)
    (hs : s = p ++ c :: q) :
    codepointNext (utf8Len p) (utf8Bytes s) = some (utf8Len p + utf8SizeC c) := by
  subst hs
  unfold codepointNext
  have hne : utf8Len p ≠ (utf8Bytes (p ++ c :: q)).length := by
    rw [utf8Bytes_length, utf8Len_append, utf8Len_cons]
    have := one_le_utf8SizeC c
    omega
  rw [if_neg hne]
  obtain ⟨b, rest, hb, hsize, _⟩ := encodeChar_head_leadSize c
  have hget := utf8Bytes_get_at_boundary p c q 0 (by simp [hb])
  rw [Nat.add_zero, hb] at hget
  simp at hget
  have : (utf8Bytes (p ++ c :: q)).getD (utf8Len p) 0 = b := by
    unfold List.getD
    rw [List.get?_eq_getElem?, hget]
    rfl
  rw [this, hsize]

/-- **C6 core.** On a valid buffer, from any boundary cursor where `next`
succeeds, `next_back` steps exactly back to the starting cursor. -/
theorem codepoint_prev_next (s : List Char) (i j : Nat)
    (hb : Boundary s i)
    (hn : codepointNext i (utf8Bytes s) = some j) :
    codepointPrev j (utf8Bytes s) = some i := by
  obtain ⟨p, q, hs, hi⟩ := hb
  cases q with
  | nil =>
      exfalso
      subst hs hi
      unfold codepointNext at hn
      rw [if_pos (by simp [utf8Bytes_length, utf8Len_append, utf8Len])] at hn
      simp at hn
  | cons c rest =>
      subst hs hi
      rw [codepointNext_boundary _ p c rest rfl] at hn
      have hj : j = utf8Len p + utf8SizeC c := by
        injection hn with h; omega
      subst hj
      unfold codepointPrev
      have hsz := one_le_utf8SizeC c
      rw [if_neg (by omega)]
      congr 1
      apply prevBoundary_eq_of
      · omega
      · exact boundary_isCharBoundary _ _ ⟨p, c :: rest, rfl, rfl⟩
      · intro t h1 h2
        have hd : t = utf8Len p + (t - utf8Len p) := by omega
        rw [hd]
        apply not_boundary_inside p c rest
        · omega
        · rw [encodeChar_length]; omega

/-- Results of `Codepoint::next` from a boundary are boundaries within bounds. -/
theorem codepointNext_preserves (s : List Char) (i j : Nat)
    (hb : Boundary s i)
    (hn : codepointNext i (utf8Bytes s) = some j) :
    Boundary s j ∧ i < j ∧ j ≤ utf8Len s := by
  obtain ⟨p, q, hs, hi⟩ := hb
  cases q with
  | nil =>
      exfalso
      subst hs hi
      unfold codepointNext at hn
      rw [if_pos (by simp [utf8Bytes_length, utf8Len_append, utf8Len])] at hn
      simp at hn
  | cons c rest =>
      subst hs hi
      rw [codepointNext_boundary _ p c rest rfl] at hn
      have hj : j = utf8Len p + utf8SizeC c := by injection hn with h; omega
      subst hj
      have hsz := one_le_utf8SizeC c
      refine ⟨⟨p ++ [c], rest, by simp, by simp [utf8Len_append, utf8Len]⟩, by omega, ?_⟩
      rw [utf8Len_append, utf8Len_cons]
      omega

/-- Results of `Codepoint::next_back` are boundaries strictly before the cursor. -/
theorem codepointPrev_preserves (s : List Char) (i j : Nat)
    (hn : codepointPrev i (utf8Bytes s) = some j) :
    Boundary s j ∧ j < i := by
  unfold codepointPrev at hn
  by_cases h0 : i = 0
  · simp [h0] at hn
  · rw [if_neg h0] at hn
    injection hn with h
    subst h
    constructor
    · exact isCharBoundary_boundary s _ (prevBoundary_isBoundary _ _)
    · have := prevBoundary_le (utf8Bytes s) (i - 1)
      omega

theorem one_le_leadSize (b : Nat) : 1 ≤ leadSize b := by
  unfold leadSize
  by_cases h1 : b < 0x80
  · simp [h1]
  · by_cases h2 : b < 0xe0
    · simp [h1, h2]
    · by_cases h3 : b < 0xf0 <;> simp [h1, h2, h3]

/-- Plain `Codepoint::next` increases the offset unconditionally. -/
theorem codepointNext_lt (i j : Nat) (bytes : List Nat)
    (hn : codepointNext i bytes = some j) : i < j := by
  unfold codepointNext at hn
  split at hn
  · simp at hn
  · injection hn with h
    have := one_le_leadSize (bytes.getD i 0)
    omega

/-- **C6.** For every valid UTF-8 buffer and every in-bounds cursor on a
codepoint boundary, when `Codepoint::next` succeeds with cursor `j`,
`Codepoint::next_back` from `j` returns exactly the original cursor: the
forward and backward codepoint steps are exact inverses. -/
theorem claim_C6_codepoint_inverse (s : List Char) (i j : Nat)
    (hb : Boundary s i)
    (hn : codepointNext i (utf8Bytes s) = some j) :
    codepointPrev j (utf8Bytes s) = some i :=
  codepoint_prev_next s i j hb hn

/-- Witness for C6 at a concrete input: buffer `"aé"`, cursor 1 (after the
one-byte `'a'`, a boundary), `next` crosses the two-byte `'é'` to 3, and
`next_back` from 3 returns to 1. -/
theorem claim_C6_codepoint_inverse_witness :
    codepointNext 1 (utf8Bytes "aé".toList) = some 3 ∧
    codepointPrev 3 (utf8Bytes "aé".toList) = some 1 :=
  ⟨by decide, claim_C6_codepoint_inverse "aé".toList 1 3 ⟨['a'], ['é'], rfl, rfl⟩ (by decide)⟩

/-! ## The string buffer view

The string `Buffer` that `src/six/src/mode.rs` manipulates is declared in its
snapshot's state module, which is absent from the sources (the `buffer.rs`
present is a row-based sibling whose bodies are `unimplemented!()`).  Its
accessors are modelled from the spec where noted. -/

/-- Modelled from the spec: `Buffer::get(offset)` ("returns the character
starting at `offset`, or `None` past the end", §4.1); absent from the sources.
Walks the text subtracting each character's byte length; `None` off a
boundary or past the end. -/
def charAtOffset : List Char → Nat → Option Char
  | [], _ => none
  | c :: cs, n =>
      if n = 0 then some c
      else if utf8SizeC c ≤ n then charAtOffset cs (n - utf8SizeC c) else none

/-- The characters wholly contained in the first `n` bytes of the text
(the content of the Rust slice `&text[..n]` when `n` is a boundary). -/
def takeBytes : Nat → List Char → List Char
  | _, [] => []
  | n, c :: cs => if utf8SizeC c ≤ n then c :: takeBytes (n - utf8SizeC c) cs else []

/-- The characters from byte offset `n` on (the content of `&text[n..]`
when `n` is a boundary). -/
def dropBytes : Nat → List Char → List Char
  | 0, s => s
  | _, [] => []
  | n, c :: cs => if utf8SizeC c ≤ n then dropBytes (n - utf8SizeC c) cs else c :: cs

/-- Rust `str::get(..n)`: the prefix slice, provided `n` is a character
boundary (which includes `n ≤ len`). -/
def strGetTo (s : List Char) (n : Nat) : Option (List Char) :=
  if isCharBoundary (utf8Bytes s) n then some (takeBytes n s) else none

/-! ## Position streams of the `Codepoint` iterator

The metric iterators of `src/six/src/cursor/` are stateful Rust iterators;
`find`/`rfind`/`take_while` walk them.  We materialise the finite stream of
positions they traverse.  The forward stream carries fuel `len + 1`, enough
for any in-bounds traversal (each step advances at least one byte); the
backward stream is bounded by the starting offset. -/

def cpNextPositionsFuel (bytes : List Nat) : Nat → Nat → List Nat
  | 0, _ => []
  | fuel + 1, i =>
      match codepointNext i bytes with
      | none => []
      | some j => j :: cpNextPositionsFuel bytes fuel j

/-- All positions `Codepoint::next` visits from `i`, in order. -/
def cpNextPositions (i : Nat) (bytes : List Nat) : List Nat :=
  cpNextPositionsFuel bytes (bytes.length + 1) i

def cpPrevPositionsFuel (bytes : List Nat) : Nat → Nat → List Nat
  | 0, _ => []
  | fuel + 1, i =>
      match codepointPrev i bytes with
      | none => []
      | some j => j :: cpPrevPositionsFuel bytes fuel j

/-- All positions `Codepoint::next_back` visits from `i`, in order. -/
def cpPrevPositions (i : Nat) (bytes : List Nat) : List Nat :=
  cpPrevPositionsFuel bytes (i + 1) i

/-! ## The remaining metrics -/

/-- The source's `Bounded::next` (src/six/src/cursor/bounded.rs): a codepoint step, refused
when the character at the target position is a line break. -/
def boundedNext (i : Nat) (s : List Char) : Option Nat :=
  match codepointNext i (utf8Bytes s) with
  | some j => if charAtOffset s j = some '\n' then none else some j
  | none => none

/-- The source's `Bounded::next_back` (src/six/src/cursor/bounded.rs). -/
def boundedPrev (i : Nat) (s : List Char) : Option Nat :=
  match codepointPrev i (utf8Bytes s) with
  | some j => if charAtOffset s j = some '\n' then none else some j
  | none => none

def boundedNextPositionsFuel (s : List Char) : Nat → Nat → List Nat
  | 0, _ => []
  | fuel + 1, i =>
      match boundedNext i s with
      | none => []
      | some j => j :: boundedNextPositionsFuel s fuel j

def boundedNextPositions (i : Nat) (s : List Char) : List Nat :=
  boundedNextPositionsFuel s (utf8Len s + 1) i

def boundedPrevPositionsFuel (s : List Char) : Nat → Nat → List Nat
  | 0, _ => []
  | fuel + 1, i =>
      match boundedPrev i s with
      | none => []
      | some j => j :: boundedPrevPositionsFuel s fuel j

def boundedPrevPositions (i : Nat) (s : List Char) : List Nat :=
  boundedPrevPositionsFuel s (i + 1) i

/-- The source's `is_word_head` (src/six/src/cursor/head.rs, lines 8–19): slice the text up
to and including byte `offset`, and require its last character to be
non-whitespace while the one before is whitespace or absent. -/
def isWordHead (s : List Char) (o : Nat) : Bool :=
  match strGetTo s (o + 1) with
  | some pre =>
      (match pre.getLast? with
       | some c => !c.isWhitespace
       | none => false) &&
      (match pre.dropLast.getLast? with
       | some c => c.isWhitespace
       | none => true)
  | none => false

/-- The source's `Head::next`: the first subsequent codepoint position satisfying
`is_word_head`. -/
def headNext (i : Nat) (s : List Char) : Option Nat :=
  (cpNextPositions i (utf8Bytes s)).find? (fun j => isWordHead s j)

/-- The source's `Head::next_back`. -/
def headPrev (i : Nat) (s : List Char) : Option Nat :=
  (cpPrevPositions i (utf8Bytes s)).find? (fun j => isWordHead s j)

/-- The source's `is_word_tail` (src/six/src/cursor/tail.rs, lines 9–15): a non-whitespace
character whose following codepoint is whitespace or absent. -/
def isWordTail (s : List Char) (o : Nat) : Bool :=
  (match charAtOffset s o with
   | some c => !c.isWhitespace
   | none => false) &&
  (match codepointNext o (utf8Bytes s) with
   | some j =>
       match charAtOffset s j with
       | some c => c.isWhitespace
       | none => true
   | none => true)

/-- The source's `Tail::next`. -/
def tailNext (i : Nat) (s : List Char) : Option Nat :=
  (cpNextPositions i (utf8Bytes s)).find? (fun j => isWordTail s j)

/-- The source's `Tail::next_back`. -/
def tailPrev (i : Nat) (s : List Char) : Option Nat :=
  (cpPrevPositions i (utf8Bytes s)).find? (fun j => isWordTail s j)

/-- First byte equal to `b` at index `≥ i` (Rust `text[i..].find(ch)` for the
one-byte character `ch`, reported as an absolute offset). -/
def findByteFrom (bytes : List Nat) (b : Nat) (i : Nat) : Option Nat :=
  (List.range' i (bytes.length - i)).find? (fun j => bytes.getD j 0 = b)

/-- Last byte equal to `b` at index `< i` (Rust `text[..i].rfind(ch)`). -/
def rfindByte (bytes : List Nat) (b : Nat) : Nat → Option Nat
  | 0 => none
  | j + 1 => if bytes.getD j 0 = b then some j else rfindByte bytes b j

/-- The source's `Cursor::to_col` (src/six/src/cursor/mod.rs, lines 48–51): the display
width of the text between the preceding line break and the cursor; the width
function of the `unicode_width` crate is a parameter `w`. -/
def toCol (w : Char → Nat) (s : List Char) (o : Nat) : Nat :=
  let start :=
    match rfindByte (utf8Bytes s) 10 o with
    | some idx => idx + 1
    | none => 0
  ((dropBytes start (takeBytes o s)).map w).sum

/-- The source's `Line::next` (src/six/src/cursor/line.rs, lines 23–34): jump just past the
next line break, then advance within that line while the column does not
exceed the anchor's column. -/
def lineNext (w : Char → Nat) (i : Nat) (s : List Char) : Option Nat :=
  let col := toCol w s i
  match findByteFrom (utf8Bytes s) 10 i with
  | none => none
  | some nl =>
      let base := nl + 1
      let taken := (boundedNextPositions base s).takeWhile (fun p => toCol w s p ≤ col)
      some (taken.getLastD base)

/-- The source's `Line::next_back` (src/six/src/cursor/line.rs, lines 38–49): jump onto the
previous line break, then search backwards within that line for the anchor's
column. -/
def linePrev (w : Char → Nat) (i : Nat) (s : List Char) : Option Nat :=
  let col := toCol w s i
  match rfindByte (utf8Bytes s) 10 i with
  | none => none
  | some nl =>
      some (((boundedPrevPositions nl s).find? (fun p => toCol w s p = col)).getD nl)

/-- Modelled from the spec: the `Paragraph` boundary predicate (§4.2, "a
position immediately after a line-break that is itself preceded by a
line-break and followed by a non-line-break"); the flat-buffer iterator in
src/six/src/cursor/paragraph.rs is `todo!()`. -/
def isParagraphPoint (s : List Char) (j : Nat) : Bool :=
  decide (2 ≤ j) &&
  decide (charAtOffset s (j - 1) = some '\n') &&
  decide (charAtOffset s (j - 2) = some '\n') &&
  (match charAtOffset s j with
   | some c => decide (c ≠ '\n')
   | none => false)

/-- Modelled from the spec: forward `Paragraph` motion as a codepoint-filtered
search for the paragraph boundary predicate. -/
def paragraphNext (i : Nat) (s : List Char) : Option Nat :=
  (cpNextPositions i (utf8Bytes s)).find? (fun j => isParagraphPoint s j)

/-- Modelled from the spec: backward `Paragraph` motion. -/
def paragraphPrev (i : Nat) (s : List Char) : Option Nat :=
  (cpPrevPositions i (utf8Bytes s)).find? (fun j => isParagraphPoint s j)

/-- The metric tags of §4.2, one per iterator module of src/six/src/cursor/. -/
inductive Metric where
  | codepoint
  | bounded
  | line
  | head
  | tail
  | paragraph
deriving DecidableEq, Repr

/-- One forward step of a metric (`Cursor::forward`, i.e. the iterator's first
`next`).  The width function `w` is only consulted by `line`. -/
def metricNext (M : Metric) (w : Char → Nat) (i : Nat) (s : List Char) : Option Nat :=
  match M with
  | .codepoint => codepointNext i (utf8Bytes s)
  | .bounded => boundedNext i s
  | .line => lineNext w i s
  | .head => headNext i s
  | .tail => tailNext i s
  | .paragraph => paragraphNext i s

/-- One backward step of a metric (`Cursor::backward`, the iterator's first
`next_back`). -/
def metricPrev (M : Metric) (w : Char → Nat) (i : Nat) (s : List Char) : Option Nat :=
  match M with
  | .codepoint => codepointPrev i (utf8Bytes s)
  | .bounded => boundedPrev i s
  | .line => linePrev w i s
  | .head => headPrev i s
  | .tail => tailPrev i s
  | .paragraph => paragraphPrev i s

/-! ## Cursor invariant preservation (C9) -/

theorem mem_cpNextPositionsFuel_lt (bytes : List Nat) :
    ∀ fuel i j, j ∈ cpNextPositionsFuel bytes fuel i → i < j := by
  intro fuel
  induction fuel with
  | zero => intro i j h; simp [cpNextPositionsFuel] at h
  | succ f ih =>
      intro i j h
      unfold cpNextPositionsFuel at h
      cases hn : codepointNext i bytes with
      | none => rw [hn] at h; simp at h
      | some j0 =>
          rw [hn] at h
          rcases List.mem_cons.mp h with h | h
          · subst h; exact codepointNext_lt i j bytes hn
          · exact Nat.lt_trans (codepointNext_lt i j0 bytes hn) (ih j0 j h)

theorem mem_cpNextPositionsFuel_boundary (s : List Char) :
    ∀ fuel i j, Boundary s i → j ∈ cpNextPositionsFuel (utf8Bytes s) fuel i →
      Boundary s j ∧ j ≤ utf8Len s := by
  intro fuel
  induction fuel with
  | zero => intro i j _ h; simp [cpNextPositionsFuel] at h
  | succ f ih =>
      intro i j hb h
      unfold cpNextPositionsFuel at h
      cases hn : codepointNext i (utf8Bytes s) with
      | none => rw [hn] at h; simp at h
      | some j0 =>
          rw [hn] at h
          have hj0 := codepointNext_preserves s i j0 hb hn
          rcases List.mem_cons.mp h with h | h
          · subst h; exact ⟨hj0.1, hj0.2.2⟩
          · exact ih j0 j hj0.1 h

theorem mem_cpPrevPositionsFuel (s : List Char) :
    ∀ fuel i j, j ∈ cpPrevPositionsFuel (utf8Bytes s) fuel i →
      Boundary s j ∧ j < i := by
  intro fuel
  induction fuel with
  | zero => intro i j h; simp [cpPrevPositionsFuel] at h
  | succ f ih =>
      intro i j h
      unfold cpPrevPositionsFuel at h
      cases hn : codepointPrev i (utf8Bytes s) with
      | none => rw [hn] at h; simp at h
      | some j0 =>
          rw [hn] at h
          have hj0 := codepointPrev_preserves s i j0 hn
          rcases List.mem_cons.mp h with h | h
          · subst h; exact hj0
          · have := ih j0 j h
            exact ⟨this.1, Nat.lt_trans this.2 hj0.2⟩

theorem boundedNext_codepoint (i j : Nat) (s : List Char)
    (h : boundedNext i s = some j) : codepointNext i (utf8Bytes s) = some j := by
  unfold boundedNext at h
  cases hn : codepointNext i (utf8Bytes s) with
  | none => rw [hn] at h; simp at h
  | some j0 =>
      rw [hn] at h
      simp at h
      rw [h.2]

theorem boundedPrev_codepoint (i j : Nat) (s : List Char)
    (h : boundedPrev i s = some j) : codepointPrev i (utf8Bytes s) = some j := by
  unfold boundedPrev at h
  cases hn : codepointPrev i (utf8Bytes s) with
  | none => rw [hn] at h; simp at h
  | some j0 =>
      rw [hn] at h
      simp at h
      rw [h.2]

theorem mem_boundedNextPositionsFuel_boundary (s : List Char) :
    ∀ fuel i j, Boundary s i → j ∈ boundedNextPositionsFuel s fuel i →
      Boundary s j ∧ i < j ∧ j ≤ utf8Len s := by
  intro fuel
  induction fuel with
  | zero => intro i j _ h; simp [boundedNextPositionsFuel] at h
  | succ f ih =>
      intro i j hb h
      unfold boundedNextPositionsFuel at h
      cases hn : boundedNext i s with
      | none => rw [hn] at h; simp at h
      | some j0 =>
          rw [hn] at h
          have hcp := boundedNext_codepoint i j0 s hn
          have hj0 := codepointNext_preserves s i j0 hb hcp
          rcases List.mem_cons.mp h with h | h
          · subst h; exact ⟨hj0.1, hj0.2.1, hj0.2.2⟩
          · have := ih j0 j hj0.1 h
            exact ⟨this.1, Nat.lt_trans hj0.2.1 this.2.1, this.2.2⟩

theorem mem_boundedPrevPositionsFuel (s : List Char) :
    ∀ fuel i j, j ∈ boundedPrevPositionsFuel s fuel i →
      Boundary s j ∧ j < i := by
  intro fuel
  induction fuel with
  | zero => intro i j h; simp [boundedPrevPositionsFuel] at h
  | succ f ih =>
      intro i j h
      unfold boundedPrevPositionsFuel at h
      cases hn : boundedPrev i s with
      | none => rw [hn] at h; simp at h
      | some j0 =>
          rw [hn] at h
          have hj0 := codepointPrev_preserves s i j0 (boundedPrev_codepoint i j0 s hn)
          rcases List.mem_cons.mp h with h | h
          · subst h; exact hj0
          · have := ih j0 j h
            exact ⟨this.1, Nat.lt_trans this.2 hj0.2⟩

/-- An ASCII byte of a valid UTF-8 sequence sits on a boundary, and so does
the position right after it. -/
theorem ascii_byte_boundary (s : List Char) (j b : Nat)
    (hget : (utf8Bytes s).getD j 0 = b) (hj : j < (utf8Bytes s).length)
    (hb : b < 0x80) : Boundary s j ∧ Boundary s (j + 1) := by
  rw [utf8Bytes_length] at hj
  obtain ⟨p, c, q, t, hs, hjt, htl⟩ := position_decompose s j hj
  have hbyte : (utf8Bytes s).get? j = (encodeChar c).get? t := by
    rw [hs, hjt]
    exact utf8Bytes_get_at_boundary p c q t (by rw [encodeChar_length]; exact htl)
  have ht0 : t = 0 := by
    by_contra ht
    obtain ⟨b2, hb2, hge, _⟩ :=
      encodeChar_tail_continuation c t (by omega) (by rw [encodeChar_length]; exact htl)
    rw [hb2] at hbyte
    have : (utf8Bytes s).getD j 0 = b2 := by
      unfold List.getD
      rw [hbyte]
      rfl
    omega
  subst ht0 hjt
  obtain ⟨b0, rest, henc, hlead, _⟩ := encodeChar_head_leadSize c
  have hbyte0 : (utf8Bytes s).get? (utf8Len p + 0) = some b0 := by
    rw [hbyte, henc]
    rfl
  have hb0 : b = b0 := by
    unfold List.getD at hget
    rw [hbyte0] at hget
    simpa using hget.symm
  have hsize1 : utf8SizeC c = 1 := by
    rw [← hlead]
    unfold leadSize
    rw [if_pos (by omega)]
  constructor
  · exact ⟨p, c :: q, hs, by omega⟩
  · refine ⟨p ++ [c], q, by rw [hs]; simp, ?_⟩
    rw [utf8Len_append]
    have hc1 : utf8Len [c] = utf8SizeC c := by simp [utf8Len]
    omega

theorem findByteFrom_spec (bytes : List Nat) (b i j : Nat)
    (h : findByteFrom bytes b i = some j) :
    i ≤ j ∧ j < bytes.length ∧ bytes.getD j 0 = b := by
  unfold findByteFrom at h
  have hmem := List.mem_of_find?_eq_some h
  have hpred := List.find?_some h
  rw [List.mem_range'] at hmem
  obtain ⟨k, hk, hjk⟩ := hmem
  simp at hpred
  refine ⟨by omega, by omega, ?_⟩
  unfold List.getD
  rw [List.get?_eq_getElem?]
  exact hpred

theorem rfindByte_spec (bytes : List Nat) (b : Nat) :
    ∀ i j, rfindByte bytes b i = some j → j < i ∧ bytes.getD j 0 = b := by
  intro i
  induction i with
  | zero => intro j h; simp [rfindByte] at h
  | succ k ih =>
      intro j h
      unfold rfindByte at h
      split at h
      · injection h with h; subst h
        constructor
        · omega
        · assumption
      · have := ih j h
        exact ⟨by omega, this.2⟩

/-- The byte checked by `rfindByte`/`findByteFrom` is in range when found by
`rfindByte` (its scan can run past the end; a found line break is in range
because out-of-range probes read the default 0 ≠ 10). -/
theorem getD_ten_lt_length (bytes : List Nat) (j : Nat)
    (h : bytes.getD j 0 = 10) : j < bytes.length := by
  by_contra hge
  have : bytes.getD j 0 = 0 := by
    unfold List.getD
    rw [List.get?_eq_getElem?]
    rw [List.getElem?_eq_none (by omega)]
    rfl
  omega

theorem lineNext_boundary (w : Char → Nat) (i j : Nat) (s : List Char)
    (h : lineNext w i s = some j) :
    Boundary s j ∧ i < j ∧ j ≤ utf8Len s := by
  unfold lineNext at h
  cases hf : findByteFrom (utf8Bytes s) 10 i with
  | none => rw [hf] at h; simp at h
  | some nl =>
      rw [hf] at h
      simp only [Option.some.injEq] at h
      obtain ⟨hge, hlt, hbyte⟩ := findByteFrom_spec (utf8Bytes s) 10 i nl hf
      have hbase := (ascii_byte_boundary s nl 10 hbyte hlt (by omega)).2
      have hbaselen : nl + 1 ≤ utf8Len s := by
        rw [utf8Bytes_length] at hlt; omega
      set taken :=
        (boundedNextPositions (nl + 1) s).takeWhile (fun p => toCol w s p ≤ toCol w s i)
        with htaken
      cases hT : taken with
      | nil =>
          rw [hT] at h
          simp [List.getLastD] at h
          subst h
          exact ⟨hbase, by omega, hbaselen⟩
      | cons a as =>
          have hmem : taken.getLastD (nl + 1) ∈ taken := by
            rw [hT]
            rw [List.getLastD_cons]
            exact List.getLastD_mem_cons as a
          have hmem2 : taken.getLastD (nl + 1) ∈ boundedNextPositions (nl + 1) s := by
            apply List.takeWhile_subset _ hmem
          have := mem_boundedNextPositionsFuel_boundary s _ _ _ hbase hmem2
          rw [← h]
          exact ⟨this.1, by omega, this.2.2⟩

theorem linePrev_boundary (w : Char → Nat) (i j : Nat) (s : List Char)
    (h : linePrev w i s = some j) :
    Boundary s j ∧ j ≤ utf8Len s := by
  unfold linePrev at h
  cases hf : rfindByte (utf8Bytes s) 10 i with
  | none => rw [hf] at h; simp at h
  | some nl =>
      rw [hf] at h
      simp only [Option.some.injEq] at h
      obtain ⟨hlt, hbyte⟩ := rfindByte_spec (utf8Bytes s) 10 i nl hf
      have hinr := getD_ten_lt_length (utf8Bytes s) nl hbyte
      have hnlb := (ascii_byte_boundary s nl 10 hbyte hinr (by omega)).1
      have hnllen : nl ≤ utf8Len s := by rw [utf8Bytes_length] at hinr; omega
      cases hF : (boundedPrevPositions nl s).find? (fun p => toCol w s p = toCol w s i) with
      | none =>
          rw [hF] at h
          simp at h
          subst h
          exact ⟨hnlb, hnllen⟩
      | some r =>
          rw [hF] at h
          simp at h
          subst h
          have hmem := List.mem_of_find?_eq_some hF
          have := mem_boundedPrevPositionsFuel s _ _ _ hmem
          exact ⟨this.1, by omega⟩

/-- **C9.** For every metric, every width function, every valid buffer and
every in-bounds boundary cursor, any cursor produced by the metric's forward
or backward step is again in bounds and on a codepoint boundary. -/
theorem claim_C9_metric_preserves_invariant (M : Metric) (w : Char → Nat)
    (s : List Char) (i : Nat) (hle : i ≤ utf8Len s) (hb : Boundary s i) :
    (∀ j, metricNext M w i s = some j → Boundary s j ∧ j ≤ utf8Len s) ∧
    (∀ j, metricPrev M w i s = some j → Boundary s j ∧ j ≤ utf8Len s) := by
  cases M with
  | codepoint =>
      constructor
      · intro j h
        have := codepointNext_preserves s i j hb h
        exact ⟨this.1, this.2.2⟩
      · intro j h
        have := codepointPrev_preserves s i j h
        exact ⟨this.1, by omega⟩
  | bounded =>
      constructor
      · intro j h
        have := codepointNext_preserves s i j hb (boundedNext_codepoint i j s h)
        exact ⟨this.1, this.2.2⟩
      · intro j h
        have := codepointPrev_preserves s i j (boundedPrev_codepoint i j s h)
        exact ⟨this.1, by omega⟩
  | line =>
      constructor
      · intro j h
        have := lineNext_boundary w i j s h
        exact ⟨this.1, this.2.2⟩
      · intro j h
        exact linePrev_boundary w i j s h
  | head =>
      constructor
      · intro j h
        have hmem := List.mem_of_find?_eq_some h
        have := mem_cpNextPositionsFuel_boundary s _ _ _ hb hmem
        exact this
      · intro j h
        have hmem := List.mem_of_find?_eq_some h
        have := mem_cpPrevPositionsFuel s _ _ _ hmem
        exact ⟨this.1, by omega⟩
  | tail =>
      constructor
      · intro j h
        have hmem := List.mem_of_find?_eq_some h
        have := mem_cpNextPositionsFuel_boundary s _ _ _ hb hmem
        exact this
      · intro j h
        have hmem := List.mem_of_find?_eq_some h
        have := mem_cpPrevPositionsFuel s _ _ _ hmem
        exact ⟨this.1, by omega⟩
  | paragraph =>
      constructor
      · intro j h
        have hmem := List.mem_of_find?_eq_some h
        have := mem_cpNextPositionsFuel_boundary s _ _ _ hb hmem
        exact this
      · intro j h
        have hmem := List.mem_of_find?_eq_some h
        have := mem_cpPrevPositionsFuel s _ _ _ hmem
        exact ⟨this.1, by omega⟩

/-- Witness for C9: on buffer `"a b"` from the boundary cursor 0, the Head
metric's forward step lands at 2, which is in bounds and a boundary. -/
theorem claim_C9_metric_preserves_invariant_witness :
    metricNext .head (fun _ => 1) 0 "a b".toList = some 2 ∧
    Boundary "a b".toList 2 ∧ 2 ≤ utf8Len "a b".toList :=
  ⟨by decide,
   (claim_C9_metric_preserves_invariant .head (fun _ => 1) "a b".toList 0
      (by decide) (boundary_zero _)).1 2 (by decide)⟩

/-! ## The mode state machine (src/six/src/mode.rs)

`Mode::advance` consumes the current mode and an `Operation`, mutating the
shared `Context { buffer, lua, messages }` and returning
`Advance::Continue(mode)` or `Advance::Halt(mode)`.  The boxed `FnOnce`
continuations stored in `Operator` and `Query` are defunctionalised into the
`OpK` and `QK` data below — one constructor per closure in the source, each
carrying exactly what the closure captures (the `Delete` and `Eval` closures
capture the mode to return to; the `Surround` query closure captures the
resolved range).

The `Buffer` type used by mode.rs (a string plus a cursor) is declared in a
state module absent from the sources; its operations are modelled from the
spec where their doc comments say so.  Panics (the `expect` calls in the
`Surround` continuation) are modelled as `none`. -/

/-- The string buffer of the mode machine: content plus byte-offset cursor. -/
structure EBuffer where
  text : List Char
  cursor : Nat
deriving DecidableEq, Repr

/-- The source's `Buffer::default()`: empty content, cursor 0. -/
def bufDefault : EBuffer := ⟨[], 0⟩

/-- The mutable context handed to `Mode::advance` (minus the Lua handle,
passed separately as an oracle). -/
structure Ctx where
  buffer : EBuffer
  messages : List String
deriving DecidableEq, Repr

/-- Modelled from the spec (§6): the scripting collaborator invoked by the
`Eval` continuation, mapping a program text to `some` result message or
`none` for a script error (which the source turns into `Mode::abort()`). -/
def LuaOracle : Type := List Char → Option String

mutual
/-- The source's `Mode` (src/six/src/mode.rs, lines 9–48). -/
inductive Mode where
  | normal
  | insert
  | select (anchor : Nat)
  | operator (name : String) (k : OpK)
  | query (name : String) (buf : EBuffer) (length : Option Nat) (k : QK)

/-- The `Operator` continuations of mode.rs: the `Delete` closure (which
captures the mode it returns to) and the `Surround` range closure. -/
inductive OpK where
  | delete (ret : Mode)
  | surround

/-- The `Query` continuations of mode.rs: the `Eval` closure (which captures
the mode it returns to) and the `Surround` sandwich closure (which captures
the resolved range). -/
inductive QK where
  | eval (ret : Mode)
  | surroundWith (start stop : Nat)
end

/-- The source's `Advance` (src/six/src/mode.rs, lines 51–54). -/
inductive Advance where
  | cont (m : Mode)
  | halt (m : Mode)

/-- The `Operation` enum (src/six/src/mode.rs, lines 76–131). -/
inductive Operation where
  | escape
  | insert
  | left
  | right
  | up
  | down
  | backward
  | forward
  | bol
  | eol
  | head (reverse : Bool)
  | tail (reverse : Bool)
  | delete
  | surround
  | eval
  | command (program : String)
  | input (ch : Char)
deriving DecidableEq, Repr

/-- The text with `ch` inserted at byte offset `n` (Rust `String::insert`). -/
def insertAtBytes (n : Nat) (ch : Char) (s : List Char) : List Char :=
  takeBytes n s ++ ch :: dropBytes n s

/-- The text with bytes `[s, e)` removed (`Buffer::edit("", start..end)`,
i.e. `String::replace_range` with an empty replacement). -/
def spliceBytes (s e : Nat) (text : List Char) : List Char :=
  takeBytes s text ++ dropBytes e text

/-- Modelled from the spec (§4.3 `Input` rule): `Buffer::append(ch)` inserts
`ch` at the cursor and advances the cursor by one codepoint; absent from the
sources. -/
def bufAppend (b : EBuffer) (ch : Char) : EBuffer :=
  ⟨insertAtBytes b.cursor ch b.text, b.cursor + utf8SizeC ch⟩

/-- The source's `Buffer::insert(ch, at)` (spec §4.1): inserts the character at the
codepoint-aligned offset; the cursor field is untouched. -/
def bufInsert (b : EBuffer) (ch : Char) (at_ : Nat) : EBuffer :=
  ⟨insertAtBytes at_ ch b.text, b.cursor⟩

/-- Modelled from the spec (§4.3: operators resolve `(start, end)` as
"(cursor-before, cursor-after)"): `Buffer::forward::<M>()` steps the cursor
forward over the metric, returning the pre-move cursor on success; declared
but unimplemented in src/six/src/buffer.rs. -/
def bufForward (M : Metric) (w : Char → Nat) (b : EBuffer) : Option (Nat × EBuffer) :=
  match metricNext M w b.cursor b.text with
  | some j => some (b.cursor, ⟨b.text, j⟩)
  | none => none

/-- Modelled from the spec, as `bufForward`: `Buffer::backward::<M>()`. -/
def bufBackward (M : Metric) (w : Char → Nat) (b : EBuffer) : Option (Nat × EBuffer) :=
  match metricPrev M w b.cursor b.text with
  | some j => some (b.cursor, ⟨b.text, j⟩)
  | none => none

/-- Firing an `Operator` continuation with a resolved `(start, end)` range
(src/six/src/mode.rs: the `delete` closure of lines 382–387 and the outer
`surround` closure of lines 418–432). -/
def fireOp (k : OpK) (ctx : Ctx) (se : Nat × Nat) : Option (Advance × Ctx) :=
  match k with
  | .delete ret =>
      some (.cont ret, { ctx with buffer := ⟨spliceBytes se.1 se.2 ctx.buffer.text, se.1⟩ })
  | .surround =>
      some (.cont (.query "Surround" bufDefault (some 2) (.surroundWith se.1 se.2)), ctx)

/-- Firing a `Query` continuation with the collected text (src/six/src/mode.rs:
the `eval` closure of lines 393–412 and the inner `surround` closure of lines
419–429; the latter's `expect` panics are `none`). -/
def fireQuery (L : LuaOracle) (k : QK) (ctx : Ctx) (text : List Char) :
    Option (Advance × Ctx) :=
  match k with
  | .eval ret =>
      match L text with
      | some msg => some (.cont ret, { ctx with messages := ctx.messages ++ [msg] })
      | none => some (.halt .normal, ctx)
  | .surroundWith s e =>
      match text with
      | p :: sfx :: _ =>
          some (.cont .normal,
            { ctx with buffer := bufInsert (bufInsert ctx.buffer sfx e) p s })
      | _ => none

/-- The shared shape of the forward-motion arms of `Mode::advance`
(src/six/src/mode.rs, e.g. lines 316–327): on success, an active operator is
fired with `(returned, cursor-after)`; otherwise the cursor simply moved; on
failure the command aborts to `Normal`. -/
def motionForward (w : Char → Nat) (M : Metric) (m : Mode) (ctx : Ctx) :
    Option (Advance × Ctx) :=
  match bufForward M w ctx.buffer with
  | some (start, b2) =>
      match m with
      | .operator _ k => fireOp k { ctx with buffer := b2 } (start, b2.cursor)
      | m2 => some (.cont m2, { ctx with buffer := b2 })
  | none => some (.halt .normal, ctx)

/-- The shared shape of the backward-motion arms of `Mode::advance`
(src/six/src/mode.rs, e.g. lines 251–262): the returned pre-move cursor is the
range end, the post-move cursor the range start. -/
def motionBackward (w : Char → Nat) (M : Metric) (m : Mode) (ctx : Ctx) :
    Option (Advance × Ctx) :=
  match bufBackward M w ctx.buffer with
  | some (old, b2) =>
      match m with
      | .operator _ k => fireOp k { ctx with buffer := b2 } (b2.cursor, old)
      | m2 => some (.cont m2, { ctx with buffer := b2 })
  | none => some (.halt .normal, ctx)

/-- The source's `Mode::advance` (src/six/src/mode.rs, lines 210–439), arm for arm and in
the source's match order. -/
def advance (w : Char → Nat) (L : LuaOracle) (m : Mode) (ctx : Ctx) (op : Operation) :
    Option (Advance × Ctx) :=
  match m, op with
  | _, .escape => some (.cont .normal, ctx)
  | _, .insert => some (.cont .insert, ctx)
  | .query name buf len k, .input ch =>
      if ch = '\n' ∨ len = some (utf8Len (bufAppend buf ch).text) then
        fireQuery L k ctx (bufAppend buf ch).text
      else
        some (.cont (.query name (bufAppend buf ch) len k), ctx)
  | .query name buf len k, .delete =>
      let e := (codepointNext buf.cursor (utf8Bytes buf.text)).getD (utf8Len buf.text)
      some (.cont (.query name ⟨spliceBytes buf.cursor e buf.text, buf.cursor⟩ len k), ctx)
  | .query name buf len k, .left =>
      match bufBackward .codepoint w buf with
      | some (_, buf2) => some (.cont (.query name buf2 len k), ctx)
      | none => some (.halt (.query name buf len k), ctx)
  | m, .input ch => some (.cont m, { ctx with buffer := bufAppend ctx.buffer ch })
  | m, .backward => motionBackward w .codepoint m ctx
  | m, .left => motionBackward w .bounded m ctx
  | m, .up => motionBackward w .line m ctx
  | m, .head true => motionBackward w .head m ctx
  | m, .tail true => motionBackward w .tail m ctx
  | m, .forward => motionForward w .codepoint m ctx
  | m, .right => motionForward w .bounded m ctx
  | m, .down => motionForward w .line m ctx
  | m, .head false => motionForward w .head m ctx
  | m, .tail false => motionForward w .tail m ctx
  | m, .delete => some (.cont (.operator "Delete" (.delete m)), ctx)
  | m, .eval => some (.cont (.query "Eval" bufDefault none (.eval m)), ctx)
  | .normal, .surround => some (.cont (.operator "Surround" .surround), ctx)
  | m, _ => some (.halt m, ctx)

/-- Modelled from the spec (§5, §6: operations are applied "left-to-right
with early-exit on `Halt`", leaving the state of the last successful step);
the batch driver is not under src/. -/
def runBatch (w : Char → Nat) (L : LuaOracle) : Mode → Ctx → List Operation →
    Option (Mode × Ctx)
  | m, ctx, [] => some (m, ctx)
  | m, ctx, op :: ops =>
      match advance w L m ctx op with
      | some (.cont m2, ctx2) => runBatch w L m2 ctx2 ops
      | some (.halt m2, ctx2) => some (m2, ctx2)
      | none => none

/-! ## Supporting lemmas about the machine -/

theorem mem_boundedNextPositionsFuel_lt (s : List Char) :
    ∀ fuel i j, j ∈ boundedNextPositionsFuel s fuel i → i < j := by
  intro fuel
  induction fuel with
  | zero => intro i j h; simp [boundedNextPositionsFuel] at h
  | succ f ih =>
      intro i j h
      unfold boundedNextPositionsFuel at h
      cases hn : boundedNext i s with
      | none => rw [hn] at h; simp at h
      | some j0 =>
          rw [hn] at h
          have hlt := codepointNext_lt i j0 (utf8Bytes s) (boundedNext_codepoint i j0 s hn)
          rcases List.mem_cons.mp h with h | h
          · omega
          · have := ih j0 j h
            omega

/-- Any successful forward metric step strictly increases the offset: motions
resolve operator ranges in textual order. -/
theorem metricNext_lt (M : Metric) (w : Char → Nat) (i j : Nat) (s : List Char)
    (h : metricNext M w i s = some j) : i < j := by
  cases M with
  | codepoint => exact codepointNext_lt i j (utf8Bytes s) h
  | bounded => exact codepointNext_lt i j (utf8Bytes s) (boundedNext_codepoint i j s h)
  | line =>
      unfold metricNext lineNext at h
      cases hf : findByteFrom (utf8Bytes s) 10 i with
      | none => rw [hf] at h; simp at h
      | some nl =>
          rw [hf] at h
          simp only [Option.some.injEq] at h
          have hge := (findByteFrom_spec (utf8Bytes s) 10 i nl hf).1
          set taken :=
            (boundedNextPositions (nl + 1) s).takeWhile
              (fun p => toCol w s p ≤ toCol w s i) with htk
          cases hT : taken with
          | nil =>
              rw [hT] at h
              simp [List.getLastD] at h
              omega
          | cons a as =>
              have hmem : taken.getLastD (nl + 1) ∈ taken := by
                rw [hT, List.getLastD_cons]
                exact List.getLastD_mem_cons as a
              have := mem_boundedNextPositionsFuel_lt s _ _ _
                (List.takeWhile_subset _ hmem)
              omega
  | head =>
      have := mem_cpNextPositionsFuel_lt (utf8Bytes s) _ _ _ (List.mem_of_find?_eq_some h)
      exact this
  | tail =>
      have := mem_cpNextPositionsFuel_lt (utf8Bytes s) _ _ _ (List.mem_of_find?_eq_some h)
      exact this
  | paragraph =>
      have := mem_cpNextPositionsFuel_lt (utf8Bytes s) _ _ _ (List.mem_of_find?_eq_some h)
      exact this

/-! ## C2: Escape -/

/-- **C2.** For every mode — including `Operator` and `Query` holding a
pending continuation — and every context, `Escape` yields `Continue(Normal)`
and the context (buffer bytes, cursor and messages) is untouched; the pending
continuation is dropped without its effect ever being applied. -/
theorem claim_C2_escape_to_normal (w : Char → Nat) (L : LuaOracle) (m : Mode) (ctx : Ctx) :
    advance w L m ctx .escape = some (.cont .normal, ctx) := by
  cases m <;> rfl

/-! ## C3: motion exhaustion -/

/-- **C3 (amended).** For every mode and every motion operation, when the
selected metric has nothing more in the requested direction, `advance` halts
and the context is untouched, with mode `Normal` — except `Query` + `Left`,
which is handled by the dedicated sub-buffer arm and halts still in `Query`
(the final conjunct); the claim's "halts with mode Normal for every mode" is
refuted by `claim_C3_counterexample`. -/
theorem claim_C3_motion_abort_amended (w : Char → Nat) (L : LuaOracle) (m : Mode) (ctx : Ctx) :
    (metricPrev .codepoint w ctx.buffer.cursor ctx.buffer.text = none →
      advance w L m ctx .backward = some (.halt .normal, ctx)) ∧
    (metricPrev .line w ctx.buffer.cursor ctx.buffer.text = none →
      advance w L m ctx .up = some (.halt .normal, ctx)) ∧
    (metricPrev .head w ctx.buffer.cursor ctx.buffer.text = none →
      advance w L m ctx (.head true) = some (.halt .normal, ctx)) ∧
    (metricPrev .tail w ctx.buffer.cursor ctx.buffer.text = none →
      advance w L m ctx (.tail true) = some (.halt .normal, ctx)) ∧
    (metricNext .codepoint w ctx.buffer.cursor ctx.buffer.text = none →
      advance w L m ctx .forward = some (.halt .normal, ctx)) ∧
    (metricNext .bounded w ctx.buffer.cursor ctx.buffer.text = none →
      advance w L m ctx .right = some (.halt .normal, ctx)) ∧
    (metricNext .line w ctx.buffer.cursor ctx.buffer.text = none →
      advance w L m ctx .down = some (.halt .normal, ctx)) ∧
    (metricNext .head w ctx.buffer.cursor ctx.buffer.text = none →
      advance w L m ctx (.head false) = some (.halt .normal, ctx)) ∧
    (metricNext .tail w ctx.buffer.cursor ctx.buffer.text = none →
      advance w L m ctx (.tail false) = some (.halt .normal, ctx)) ∧
    ((∀ n b l q, m ≠ .query n b l q) →
      metricPrev .bounded w ctx.buffer.cursor ctx.buffer.text = none →
      advance w L m ctx .left = some (.halt .normal, ctx)) ∧
    (∀ n b l q, m = .query n b l q →
      codepointPrev b.cursor (utf8Bytes b.text) = none →
      advance w L m ctx .left = some (.halt (.query n b l q), ctx)) := by
  have habortB : ∀ M, metricPrev M w ctx.buffer.cursor ctx.buffer.text = none →
      motionBackward w M m ctx = some (.halt .normal, ctx) := by
    intro M h
    unfold motionBackward bufBackward
    rw [h]
  have habortF : ∀ M, metricNext M w ctx.buffer.cursor ctx.buffer.text = none →
      motionForward w M m ctx = some (.halt .normal, ctx) := by
    intro M h
    unfold motionForward bufForward
    rw [h]
  refine ⟨fun h => ?_, fun h => ?_, fun h => ?_, fun h => ?_, fun h => ?_, fun h => ?_,
    fun h => ?_, fun h => ?_, fun h => ?_, fun hq h => ?_, fun n b l q hm h => ?_⟩
  · cases m <;> exact habortB .codepoint h
  · cases m <;> exact habortB .line h
  · cases m <;> exact habortB .head h
  · cases m <;> exact habortB .tail h
  · cases m <;> exact habortF .codepoint h
  · cases m <;> exact habortF .bounded h
  · cases m <;> exact habortF .line h
  · cases m <;> exact habortF .head h
  · cases m <;> exact habortF .tail h
  · cases m with
    | query n b l q => exact absurd rfl (hq n b l q)
    | normal => exact habortB .bounded h
    | insert => exact habortB .bounded h
    | select a => exact habortB .bounded h
    | operator nm k => exact habortB .bounded h
  · subst hm
    have hbb : bufBackward .codepoint w b = none := by
      unfold bufBackward
      simp only [metricPrev]
      rw [h]
    show (match bufBackward .codepoint w b with
      | some (_, buf2) => some (Advance.cont (Mode.query n buf2 l q), ctx)
      | none => some (Advance.halt (Mode.query n b l q), ctx)) = _
    rw [hbb]

/-- Witness for C3 at a concrete input: in `Insert` mode at offset 0,
`Backward` is impossible and the machine halts to `Normal`, context intact. -/
theorem claim_C3_motion_abort_amended_witness :
    advance (fun _ => 1) (fun _ => none) .insert ⟨⟨"ab".toList, 0⟩, []⟩ .backward
      = some (.halt .normal, ⟨⟨"ab".toList, 0⟩, []⟩) :=
  (claim_C3_motion_abort_amended (fun _ => 1) (fun _ => none) .insert
    ⟨⟨"ab".toList, 0⟩, []⟩).1 (by decide)

/-- Counterexample to C3 as stated: in `Query` mode with the sub-cursor at
offset 0, `Left` finds no previous codepoint and the machine halts — but the
halt mode is the `Query` itself (continuation retained), not `Normal`. -/
theorem claim_C3_counterexample :
    advance (fun _ => 1) (fun _ => none)
        (.query "Eval" ⟨['a'], 0⟩ none (.eval .normal)) ⟨⟨['x'], 0⟩, []⟩ .left
      = some (.halt (.query "Eval" ⟨['a'], 0⟩ none (.eval .normal)), ⟨⟨['x'], 0⟩, []⟩) ∧
    (Mode.query "Eval" ⟨['a'], 0⟩ none (.eval .normal) ≠ .normal) :=
  ⟨rfl, fun h => Mode.noConfusion h⟩

/-! ## C1: Delete composed with a forward motion -/

/-- The metric each forward motion operation selects (src/six/src/mode.rs,
lines 316–379). -/
def forwardMetricOf : Operation → Option Metric
  | .forward => some .codepoint
  | .right => some .bounded
  | .down => some .line
  | .head false => some .head
  | .tail false => some .tail
  | _ => none

/-- **C1.** `Normal` + `Delete` enters the `Delete` operator (whose
continuation returns to `Normal`); from it, any successful forward motion
resolves `(start, end) = (cursor-before, cursor-after)` in textual order
(`start < end`), the continuation removes the byte range `[start, end)` and
places the cursor at `start`; and Scenario B: on `"foo bar"` at offset 0 the
batch `[Delete, Head{forward}]` leaves `"bar"`, mode `Normal`, cursor 0. -/
theorem claim_C1_delete_forward_motion (w : Char → Nat) (L : LuaOracle) (ctx : Ctx) :
    (advance w L .normal ctx .delete
      = some (.cont (.operator "Delete" (.delete .normal)), ctx)) ∧
    (∀ op M, forwardMetricOf op = some M →
      ∀ st b2, bufForward M w ctx.buffer = some (st, b2) →
        advance w L (.operator "Delete" (.delete .normal)) ctx op
          = some (.cont .normal,
              { ctx with buffer := ⟨spliceBytes st b2.cursor b2.text, st⟩ }) ∧
        st < b2.cursor) ∧
    (runBatch (fun _ => 1) (fun _ => none) .normal ⟨⟨"foo bar".toList, 0⟩, []⟩
        [.delete, .head false]
      = some (.normal, ⟨⟨"bar".toList, 0⟩, []⟩)) := by
  refine ⟨rfl, ?_, rfl⟩
  intro op M hM st b2 hf
  have hlt : st < b2.cursor := by
    unfold bufForward at hf
    cases hmn : metricNext M w ctx.buffer.cursor ctx.buffer.text with
    | none => rw [hmn] at hf; simp at hf
    | some j =>
        rw [hmn] at hf
        simp at hf
        obtain ⟨h1, h2⟩ := hf
        rw [← h1, ← h2]
        simpa using metricNext_lt M w ctx.buffer.cursor j ctx.buffer.text hmn
  have harm : advance w L (.operator "Delete" (.delete .normal)) ctx op
      = motionForward w M (.operator "Delete" (.delete .normal)) ctx := by
    cases op <;> simp only [forwardMetricOf] at hM <;> first
      | (injection hM with hM; subst hM; rfl)
      | (rename_i r; cases r <;> simp at hM <;> (try (subst hM; rfl)))
      | exact absurd hM (by simp)
  refine ⟨?_, hlt⟩
  rw [harm]
  unfold motionForward
  rw [hf]
  rfl

/-- Witness for C1: firing the pending Delete operator with a forward `Head`
motion on `"foo bar"` at offset 0 deletes `"foo "` and returns to `Normal`
with the cursor at 0. -/
theorem claim_C1_delete_forward_motion_witness :
    advance (fun _ => 1) (fun _ => none) (.operator "Delete" (.delete .normal))
        ⟨⟨"foo bar".toList, 0⟩, []⟩ (.head false)
      = some (.cont .normal, ⟨⟨"bar".toList, 0⟩, []⟩) ∧ (0 : Nat) < 4 := by
  have h := (claim_C1_delete_forward_motion (fun _ => 1) (fun _ => none)
      ⟨⟨"foo bar".toList, 0⟩, []⟩).2.1 (.head false) .head rfl 0
      ⟨"foo bar".toList, 4⟩ (by decide)
  exact ⟨h.1.trans rfl, h.2⟩

/-! ## C4 and C10: Query dispatch -/

theorem takeBytes_append_dropBytes (n : Nat) (s : List Char) :
    takeBytes n s ++ dropBytes n s = s := by
  induction s generalizing n with
  | nil => cases n <;> rfl
  | cons c cs ih =>
      cases n with
      | zero =>
          have h0 : ¬ utf8SizeC c ≤ 0 := by
            have := one_le_utf8SizeC c
            omega
          show (if utf8SizeC c ≤ 0 then c :: takeBytes (0 - utf8SizeC c) cs else []) ++
              (c :: cs) = c :: cs
          rw [if_neg h0]
          rfl
      | succ m =>
          by_cases hle : utf8SizeC c ≤ m + 1
          · show (if utf8SizeC c ≤ m + 1 then c :: takeBytes (m + 1 - utf8SizeC c) cs
                else []) ++
              (if utf8SizeC c ≤ m + 1 then dropBytes (m + 1 - utf8SizeC c) cs
                else c :: cs) = c :: cs
            rw [if_pos hle, if_pos hle]
            simp [ih]
          · show (if utf8SizeC c ≤ m + 1 then c :: takeBytes (m + 1 - utf8SizeC c) cs
                else []) ++
              (if utf8SizeC c ≤ m + 1 then dropBytes (m + 1 - utf8SizeC c) cs
                else c :: cs) = c :: cs
            rw [if_neg hle, if_neg hle]
            rfl

theorem utf8Len_insertAtBytes (n : Nat) (ch : Char) (s : List Char) :
    utf8Len (insertAtBytes n ch s) = utf8SizeC ch + utf8Len s := by
  unfold insertAtBytes
  rw [utf8Len_append, utf8Len_cons]
  have h := congrArg utf8Len (takeBytes_append_dropBytes n s)
  rw [utf8Len_append] at h
  omega

theorem utf8Len_all_one (s : List Char) (h : ∀ c ∈ s, utf8SizeC c = 1) :
    utf8Len s = s.length := by
  induction s with
  | nil => rfl
  | cons c cs ih =>
      rw [utf8Len_cons, h c (by simp)]
      have := ih (fun c2 hc => h c2 (by simp [hc]))
      simp [this]
      omega

/-- **C4 (amended).** `Query` + `Input(ch)` dispatches the stored continuation
with the accumulated text exactly when `ch` is a newline or the sub-buffer's
UTF-8 *byte* length equals `max_length`; when the sub-buffer and the input
consist of single-byte characters, that is precisely the N-th character (no
newline needed); a `Query` with no `max_length` dispatches only on newline.
The claim's "dispatches upon the N-th character" for arbitrary characters is
refuted by `claim_C4_counterexample`. -/
theorem claim_C4_query_dispatch_amended (w : Char → Nat) (L : LuaOracle)
    (name : String) (buf : EBuffer) (len : Option Nat) (k : QK) (ctx : Ctx) (ch : Char) :
    (ch = '\n' →
      advance w L (.query name buf len k) ctx (.input ch)
        = fireQuery L k ctx (bufAppend buf ch).text) ∧
    (len = some (utf8Len (bufAppend buf ch).text) →
      advance w L (.query name buf len k) ctx (.input ch)
        = fireQuery L k ctx (bufAppend buf ch).text) ∧
    ((∀ c ∈ buf.text, utf8SizeC c = 1) → utf8SizeC ch = 1 →
      len = some (buf.text.length + 1) →
      advance w L (.query name buf len k) ctx (.input ch)
        = fireQuery L k ctx (bufAppend buf ch).text) ∧
    (ch ≠ '\n' → len ≠ some (utf8Len (bufAppend buf ch).text) →
      advance w L (.query name buf len k) ctx (.input ch)
        = some (.cont (.query name (bufAppend buf ch) len k), ctx)) := by
  have harm : advance w L (.query name buf len k) ctx (.input ch)
      = if ch = '\n' ∨ len = some (utf8Len (bufAppend buf ch).text)
        then fireQuery L k ctx (bufAppend buf ch).text
        else some (.cont (.query name (bufAppend buf ch) len k), ctx) := rfl
  have hbyte : utf8Len (bufAppend buf ch).text = utf8SizeC ch + utf8Len buf.text := by
    show utf8Len (insertAtBytes buf.cursor ch buf.text) = _
    exact utf8Len_insertAtBytes buf.cursor ch buf.text
  refine ⟨fun h => ?_, fun h => ?_, fun hall hch h => ?_, fun h1 h2 => ?_⟩
  · rw [harm, if_pos (Or.inl h)]
  · rw [harm, if_pos (Or.inr h)]
  · have : utf8Len (bufAppend buf ch).text = buf.text.length + 1 := by
      rw [hbyte, hch, utf8Len_all_one buf.text hall]
      omega
    rw [harm, if_pos (Or.inr (by rw [this]; exact h))]
  · rw [harm, if_neg ?_]
    intro hor
    rcases hor with hor | hor
    · exact h1 hor
    · exact h2 hor

/-- Witness for C4: a fixed-length query of `max_length` 2 holding `"a"`
fires on the second ASCII character, handing `"ab"` to the continuation —
here the `Eval` continuation, which appends the oracle's message. -/
theorem claim_C4_query_dispatch_amended_witness :
    advance (fun _ => 1) (fun _ => some "ok")
        (.query "q" ⟨['a'], 1⟩ (some 2) (.eval .normal)) ⟨⟨[], 0⟩, []⟩ (.input 'b')
      = some (.cont .normal, ⟨⟨[], 0⟩, ["ok"]⟩) := by
  have h := (claim_C4_query_dispatch_amended (fun _ => 1) (fun _ => some "ok")
      "q" ⟨['a'], 1⟩ (some 2) (.eval .normal) ⟨⟨[], 0⟩, []⟩ 'b').2.2.1
      (by decide) (by decide) rfl
  exact h.trans rfl

/-- Counterexample to C4 as stated: with `max_length = 2`, after the second
character `'é'` (two UTF-8 bytes) the byte length is 3 ≠ 2, so the machine
does **not** dispatch on the N-th character — it stays in `Query` with the
continuation unfired and the messages untouched. -/
theorem claim_C4_counterexample :
    advance (fun _ => 1) (fun _ => some "ok")
        (.query "q" ⟨['a'], 1⟩ (some 2) (.eval .normal)) ⟨⟨[], 0⟩, []⟩ (.input 'é')
      = some (.cont (.query "q" ⟨['a', 'é'], 3⟩ (some 2) (.eval .normal)), ⟨⟨[], 0⟩, []⟩) ∧
    (['a', 'é'] : List Char).length = 2 ∧ utf8Len ['a', 'é'] = 3 :=
  ⟨rfl, rfl, by decide⟩

/-- **C10.** The dispatch test compares the sub-buffer's UTF-8 byte length
(Rust `str::len`) with `max_length`: the single two-byte character `'é'` fed
to a fresh `Query` with `max_length = 2` fires the continuation immediately,
after one keystroke. -/
theorem claim_C10_dispatch_counts_bytes (w : Char → Nat) (L : LuaOracle)
    (name : String) (ctx : Ctx) (ret : Mode) :
    advance w L (.query name bufDefault (some 2) (.eval ret)) ctx (.input 'é')
      = fireQuery L (.eval ret) ctx ['é'] ∧
    utf8Len ['é'] = 2 ∧ (['é'] : List Char).length = 1 :=
  ⟨rfl, by decide, rfl⟩

/-! ## C5: Surround -/

/-- **C5 (amended).** `Normal` + `Surround` enters the `Surround` operator;
fired with a range `(start, end)` — used as-is, with no trailing-whitespace
trimming — it enters `Query("Surround", max_length = 2)`; given at least two
input characters `prefix, suffix`, the continuation inserts `suffix` at `end`
first and then `prefix` at `start`, and returns to `Normal` leaving the
cursor where it was; Scenario C: feeding `'('`, `')'` on the prior selection
`(0, 3)` over `"abc"` makes the buffer `"(abc)"`.  The claim's trimming and
cursor-at-start clauses are refuted by `claim_C5_counterexample`. -/
theorem claim_C5_surround_amended (w : Char → Nat) (L : LuaOracle) (ctx : Ctx)
    (s e : Nat) :
    (advance w L .normal ctx .surround
      = some (.cont (.operator "Surround" .surround), ctx)) ∧
    (fireOp .surround ctx (s, e)
      = some (.cont (.query "Surround" bufDefault (some 2) (.surroundWith s e)), ctx)) ∧
    (∀ p sfx rest, fireQuery L (.surroundWith s e) ctx (p :: sfx :: rest)
      = some (.cont .normal,
          { ctx with buffer :=
              ⟨insertAtBytes s p (insertAtBytes e sfx ctx.buffer.text),
                ctx.buffer.cursor⟩ })) ∧
    (runBatch (fun _ => 1) (fun _ => none)
        (.query "Surround" bufDefault (some 2) (.surroundWith 0 3))
        ⟨⟨"abc".toList, 3⟩, []⟩ [.input '(', .input ')']
      = some (.normal, ⟨⟨"(abc)".toList, 3⟩, []⟩)) :=
  ⟨rfl, rfl, fun _ _ _ => rfl, rfl⟩

/-- Counterexample to C5 as stated: surrounding the range `(0, 3)` over
`"ab "` (trailing space) with `'('`, `')'` yields `"(ab )"` — the range is
not trimmed of trailing whitespace (trimming would give `"(ab) "`) — and the
final cursor is 3, not the range start 0. -/
theorem claim_C5_counterexample :
    runBatch (fun _ => 1) (fun _ => none)
        (.query "Surround" bufDefault (some 2) (.surroundWith 0 3))
        ⟨⟨"ab ".toList, 3⟩, []⟩ [.input '(', .input ')']
      = some (.normal, ⟨⟨"(ab )".toList, 3⟩, []⟩) ∧
    "(ab )".toList ≠ "(ab) ".toList ∧ (3 : Nat) ≠ 0 :=
  ⟨rfl, by decide, by decide⟩

/-! ## C7: Query + Left -/

/-- **C7 (amended).** In `Query` mode, `Left` touches only the sub-buffer's
cursor (one codepoint back on success) and never leaves `Query`; when the
backward step is impossible — exactly when the sub-cursor is at offset 0 —
the machine halts still in `Query`, continuation retained, regardless of
whether the query has content.  The claim's "halts only if the query has no
content" is refuted by `claim_C7_counterexample`. -/
theorem claim_C7_query_left_amended (w : Char → Nat) (L : LuaOracle)
    (name : String) (buf : EBuffer) (len : Option Nat) (k : QK) (ctx : Ctx) :
    (∀ j, codepointPrev buf.cursor (utf8Bytes buf.text) = some j →
      advance w L (.query name buf len k) ctx .left
        = some (.cont (.query name ⟨buf.text, j⟩ len k), ctx)) ∧
    (codepointPrev buf.cursor (utf8Bytes buf.text) = none →
      advance w L (.query name buf len k) ctx .left
        = some (.halt (.query name buf len k), ctx)) := by
  have harm : advance w L (.query name buf len k) ctx .left
      = (match bufBackward .codepoint w buf with
        | some (_, buf2) => some (Advance.cont (Mode.query name buf2 len k), ctx)
        | none => some (Advance.halt (Mode.query name buf len k), ctx)) := rfl
  constructor
  · intro j h
    have hbb : bufBackward .codepoint w buf = some (buf.cursor, ⟨buf.text, j⟩) := by
      unfold bufBackward
      simp only [metricPrev]
      rw [h]
    rw [harm, hbb]
  · intro h
    have hbb : bufBackward .codepoint w buf = none := by
      unfold bufBackward
      simp only [metricPrev]
      rw [h]
    rw [harm, hbb]

/-- Witness for C7: a query holding `"a"` with the sub-cursor at 1 moves the
sub-cursor back to 0 and stays in `Query`. -/
theorem claim_C7_query_left_amended_witness :
    advance (fun _ => 1) (fun _ => none)
        (.query "q" ⟨['a'], 1⟩ none (.eval .normal)) ⟨⟨[], 0⟩, []⟩ .left
      = some (.cont (.query "q" ⟨['a'], 0⟩ none (.eval .normal)), ⟨⟨[], 0⟩, []⟩) :=
  (claim_C7_query_left_amended (fun _ => 1) (fun _ => none) "q" ⟨['a'], 1⟩ none
    (.eval .normal) ⟨⟨[], 0⟩, []⟩).1 0 (by decide)

/-- Counterexample to C7 as stated: a query whose sub-buffer holds the
non-empty content `"a"` but whose sub-cursor sits at offset 0 still halts on
`Left` — the halt does not require the query to have no content. -/
theorem claim_C7_counterexample :
    advance (fun _ => 1) (fun _ => none)
        (.query "q" ⟨['a'], 0⟩ none (.eval .normal)) ⟨⟨[], 0⟩, []⟩ .left
      = some (.halt (.query "q" ⟨['a'], 0⟩ none (.eval .normal)), ⟨⟨[], 0⟩, []⟩) ∧
    (['a'] : List Char) ≠ [] :=
  ⟨rfl, by decide⟩

/-! ## The row/column snapshot (src/six/src/cursor.rs with the flat view of
src/src/buffer.rs)

`Points<Paragraph>` walks row/column cursors with the `Char` unit over a line
view.  The `View` trait its buffer parameter uses is absent from that
snapshot; the sibling `BufferView` in src/src/buffer.rs supplies the
row-splitting accessors (`rows`, `cols_at`) and the flat `get` via
`to_offset`, which counts characters. -/

/-- The lines of the text, split on `'\n'` (Rust `str::split('\n')`: an empty
text has one empty line, a trailing newline yields a trailing empty line). -/
def rcRows (s : List Char) : List (List Char) :=
  s.foldr
    (fun c r =>
      if c = '\n' then [] :: r
      else
        match r with
        | [] => [[c]]
        | h :: t => (c :: h) :: t)
    [[]]

/-- The source's `BufferView::cols_at` (src/src/buffer.rs): characters in a line,
excluding the line break. -/
def rcColsAt (s : List Char) (r : Nat) : Nat :=
  ((rcRows s).getD r []).length

/-- The source's `BufferView::rows`. -/
def rcRowsCount (s : List Char) : Nat :=
  (rcRows s).length

/-- The row/column cursor of src/six/src/cursor.rs (the sticky `offset` field
is omitted: the `Char` and `Paragraph` iterators embedded here never consult
it). -/
structure RC where
  row : Nat
  col : Nat
deriving DecidableEq, Repr

/-- The source's `to_offset` (src/src/buffer.rs, lines 97–104): the flat character index
of a row/column position. -/
def rcToOffset (s : List Char) (p : RC) : Nat :=
  ((rcRows s).take p.row).foldl (fun acc line => acc + 1 + line.length) p.col

/-- The source's `BufferView::get` (src/src/buffer.rs, lines 92–94): the character at the
flat index of the position — end-of-row positions read the line break. -/
def rcGet (s : List Char) (p : RC) : Option Char :=
  s.get? (rcToOffset s p)

/-- The source's `Points<Char>::next` (src/six/src/cursor.rs, lines 99–118). -/
def rcCharNext (s : List Char) (p : RC) : Option RC :=
  if p.col = rcColsAt s p.row then
    if p.row + 1 < rcRowsCount s then some ⟨p.row + 1, 0⟩ else none
  else some ⟨p.row, p.col + 1⟩

/-- The source's `Points<Char>::next_back` (src/six/src/cursor.rs, lines 120–137): note
the source steps from column 0 to *column 0 of the previous row*
(`Cursor::new(0, row - 1)`), not to its last column. -/
def rcCharPrev (_s : List Char) (p : RC) : Option RC :=
  if p.col = 0 then
    if 0 < p.row then some ⟨p.row - 1, 0⟩ else none
  else some ⟨p.row, p.col - 1⟩

def rcCharPositionsFuel (s : List Char) : Nat → RC → List RC
  | 0, _ => []
  | fuel + 1, p =>
      match rcCharNext s p with
      | none => []
      | some q => q :: rcCharPositionsFuel s fuel q

/-- The forward `Char` position stream from an anchor. -/
def rcCharPositions (s : List Char) (p : RC) : List RC :=
  rcCharPositionsFuel s (s.length + rcRowsCount s + 2) p

/-- The search predicate of `Points<Paragraph>::next` (src/six/src/cursor.rs,
lines 269–278): the position holds a character other than a line break, and
its `Char` predecessor holds a line break. -/
def rcParagraphPred (s : List Char) (p : RC) : Bool :=
  match rcCharPrev s p with
  | some q =>
      (match rcGet s p with
       | some c => decide (c ≠ '\n')
       | none => false) &&
      (match rcGet s q with
       | some c => decide (c = '\n')
       | none => false)
  | none => false

/-- The source's `Points<Paragraph>::next` (src/six/src/cursor.rs, lines 266–282). -/
def rcParagraphNext (s : List Char) (p : RC) : Option RC :=
  (rcCharPositions s p).find? (fun q => rcParagraphPred s q)

/-- The claim's paragraph-boundary predicate, stated from the spec's words
(§4.2): a flat position immediately after a line-break that is itself
preceded by a line-break and followed by a non-line-break. -/
def specParagraphPoint (s : List Char) (o : Nat) : Prop :=
  2 ≤ o ∧ s.get? (o - 1) = some '\n' ∧ s.get? (o - 2) = some '\n' ∧
  (∃ c, s.get? o = some c ∧ c ≠ '\n')

/-- **C8 (amended).** One forward `Paragraph` motion yields the next `Char`
position holding a character other than a line break whose `Char` predecessor
holds a line break — with the source's backward `Char` step, that is the
start of a non-blank line immediately preceded by a blank line *or by a
blank first line*; Scenario D: on `"a\n\nb"` from the origin the cursor
lands at row 2, column 0, flat offset 3, the position of `'b'`.  The claim's
requirement that the line break be *preceded by another line break* is
refuted at a leading blank line by `claim_C8_counterexample`. -/
theorem claim_C8_paragraph_forward_amended :
    (∀ s anchor p, rcParagraphNext s anchor = some p →
      (∃ c, rcGet s p = some c ∧ c ≠ '\n') ∧
      (∃ q, rcCharPrev s p = some q ∧ rcGet s q = some '\n')) ∧
    (rcParagraphNext "a\n\nb".toList ⟨0, 0⟩ = some ⟨2, 0⟩ ∧
      rcToOffset "a\n\nb".toList ⟨2, 0⟩ = 3 ∧
      "a\n\nb".toList.get? 3 = some 'b') := by
  constructor
  · intro s anchor p h
    have hpred := List.find?_some h
    unfold rcParagraphPred at hpred
    cases hq : rcCharPrev s p with
    | none => rw [hq] at hpred; simp at hpred
    | some q =>
        rw [hq] at hpred
        simp at hpred
        cases hg : rcGet s p with
        | none => rw [hg] at hpred; simp at hpred
        | some c =>
            rw [hg] at hpred
            cases hg2 : rcGet s q with
            | none => rw [hg2] at hpred; simp at hpred
            | some c2 =>
                rw [hg2] at hpred
                simp at hpred
                exact ⟨⟨c, rfl, hpred.1⟩, ⟨q, rfl, by rw [hg2, hpred.2]⟩⟩
  · exact ⟨rfl, rfl, rfl⟩

/-- Witness for C8: the theorem applied to the Scenario D run — the found
position holds `'b'` and its `Char` predecessor holds a line break. -/
theorem claim_C8_paragraph_forward_amended_witness :
    (∃ c, rcGet "a\n\nb".toList ⟨2, 0⟩ = some c ∧ c ≠ '\n') ∧
    (∃ q, rcCharPrev "a\n\nb".toList ⟨2, 0⟩ = some q ∧
      rcGet "a\n\nb".toList q = some '\n') :=
  claim_C8_paragraph_forward_amended.1 "a\n\nb".toList ⟨0, 0⟩ ⟨2, 0⟩ rfl

/-- Counterexample to C8 as stated: on `"\nb"` (a leading blank line) the
forward `Paragraph` motion yields the position of `'b'`, flat offset 1 — but
offset 1 is not "immediately after a line-break that is itself preceded by a
line-break": no position before the leading line break exists. -/
theorem claim_C8_counterexample :
    rcParagraphNext "\nb".toList ⟨0, 0⟩ = some ⟨1, 0⟩ ∧
    rcToOffset "\nb".toList ⟨1, 0⟩ = 1 ∧
    ¬ specParagraphPoint "\nb".toList 1 := by
  refine ⟨rfl, rfl, ?_⟩
  intro h
  obtain ⟨h2, -⟩ := h
  omega
